import Mathlib

/-!
Verification of the AVL tree implementation in trees/avl/avl.go.

The Go data model is a pointer structure: `*Node` is either nil or a node
with fields left, right (both `*Node`), data and height (Go `int`).  We
embed `*Node` as the inductive `Avl.Node` with a `nil` constructor, and Go
`int` as `Int` (all arithmetic in this code is on small heights and on
keys that are only compared, so no overflow is reachable and plain `Int`
is a faithful model).  The mutating Go helpers, which receive a `**Node`
and reassign the child slot in place, become functions returning the new
subtree rooted at that slot; fallible operations return `Except`.
-/

namespace Avl

/-- Embeds Go `*Node`: nil, or a Node with left/right child pointers,
data and cached height (avl.go, type Node). -/
inductive Node where
  | nil : Node
  | node (left : Node) (data : Int) (height : Int) (right : Node)
deriving DecidableEq, Repr

/-- Embeds `AvlTree`: a root pointer and a live node count. -/
structure AvlTree where
  root : Node
  nodeCount : Int
deriving DecidableEq, Repr

/-- The two sentinel errors of the package: `ErrDuplicateItem` and
`ErrItemNotFound`. -/
inductive AvlError where
  | errDuplicateItem : AvlError
  | errItemNotFound : AvlError
deriving DecidableEq, Repr

/-- Embeds `allowedImbalance = 1`. -/
def allowedImbalance : Int := 1

/-- Embeds `func NewTree() *AvlTree`: the zero-valued tree (nil root,
count 0). -/
def NewTree : AvlTree := ⟨Node.nil, 0⟩

/-- Embeds `func height(node *Node) int`: -1 for nil, else the stored
height field. -/
def height : Node → Int
  | .nil => -1
  | .node _ _ h _ => h

/-- Embeds the package-local `func max(x, y int) int`. -/
def max (x y : Int) : Int :=
  if x > y then x else y

/-- Embeds `func setHeight(node *Node)`: overwrite the stored height with
1 + max of the children's heights.  Go dereferences the pointer, so the
nil case is never reached by the callers; we map it to nil. -/
def setHeight : Node → Node
  | .nil => .nil
  | .node l d _ r => .node l d (1 + Avl.max (height l) (height r)) r

/-- Embeds `func rotateWithLeftChild(root **Node)`: k2 is the old root,
k1 its left child; k2.left becomes k1.right, k1.right becomes k2, k1 is
installed at the slot; then setHeight(k2) runs before setHeight(k1), so
k1's new height reads k2's freshly recomputed height.  Go dereferences
k1, so a nil left child (never passed by `balance`) would panic; we
return the tree unchanged there. -/
def rotateWithLeftChild : Node → Node
  | .node (.node ll ld lh lr) d h r =>
      setHeight (.node ll ld lh (setHeight (.node lr d h r)))
  | t => t

/-- Embeds `func rotateWithRightChild(root **Node)`, the mirror image. -/
def rotateWithRightChild : Node → Node
  | .node l d h (.node rl rd rh rr) =>
      setHeight (.node (setHeight (.node l d h rl)) rd rh rr)
  | t => t

/-- Embeds `func doubleRotateWithLeftChild(node **Node)`: rotate the left
child with its right child, then rotate the node with its (new) left
child. -/
def doubleRotateWithLeftChild : Node → Node
  | .node l d h r => rotateWithLeftChild (.node (rotateWithRightChild l) d h r)
  | .nil => .nil

/-- Embeds `func doubleRotateWithRightChild(node **Node)`, the mirror. -/
def doubleRotateWithRightChild : Node → Node
  | .node l d h r => rotateWithRightChild (.node l d h (rotateWithLeftChild r))
  | .nil => .nil

/-- Embeds `func outerLeftDeeper(node *Node) bool`:
height(node.left.left) > height(node.left.right).  Go dereferences
node.left, which `balance` guarantees is non-nil when it calls this. -/
def outerLeftDeeper : Node → Bool
  | .node (.node ll _ _ lr) _ _ _ => decide (height ll > height lr)
  | _ => false

/-- Embeds `func outerRightDeeper(node *Node) bool`:
height(node.right.right) > height(node.right.left). -/
def outerRightDeeper : Node → Bool
  | .node _ _ _ (.node rl _ _ rr) => decide (height rr > height rl)
  | _ => false

/-- Embeds `func (t *AvlTree) balance(node **Node)`: if the left height
exceeds the right by more than allowedImbalance, do a single rotation in
the outer-deeper case and a double rotation otherwise; mirrored on the
right; otherwise leave the subtree alone.  Go dereferences the node, and
every call site passes a non-nil node, so the nil case is unreachable. -/
def balance : Node → Node
  | .nil => .nil
  | .node l d h r =>
      if height l - height r > allowedImbalance then
        if outerLeftDeeper (.node l d h r) then
          rotateWithLeftChild (.node l d h r)
        else
          doubleRotateWithLeftChild (.node l d h r)
      else if height r - height l > allowedImbalance then
        if outerRightDeeper (.node l d h r) then
          rotateWithRightChild (.node l d h r)
        else
          doubleRotateWithRightChild (.node l d h r)
      else
        .node l d h r

/-- Embeds `func (t *AvlTree) insert(node **Node, n int) (err error)` at
one slot.  Returns `none` when Go returns ErrDuplicateItem (in which case
the Go tree is untouched: the error path performs no assignment and skips
setHeight and balance), and `some` of the new subtree otherwise.  A node
is created, with height 0, exactly on the success path. -/
def insert : Node → Int → Option Node
  | .nil, n => some (.node .nil n 0 .nil)
  | .node l d h r, n =>
      if n = d then
        none
      else if n < d then
        match insert l n with
        | none => none
        | some l2 => some (balance (setHeight (.node l2 d h r)))
      else
        match insert r n with
        | none => none
        | some r2 => some (balance (setHeight (.node l d h r2)))

/-- Embeds `func (t *AvlTree) Insert(n int) error`: runs the recursive
insert at the root; the node count is incremented exactly when the base
case allocates (success), which we account for at the wrapper. -/
def Insert (t : AvlTree) (n : Int) : Except AvlError AvlTree :=
  match insert t.root n with
  | none => .error .errDuplicateItem
  | some r => .ok ⟨r, t.nodeCount + 1⟩

/-- Embeds `func findMin(node *Node) *Node` (we keep only the data field,
which is all the caller reads).  Go dereferences the argument; the one
call site passes a non-nil right child, so the nil case is unreachable
(we return 0 there). -/
def findMin : Node → Int
  | .nil => 0
  | .node .nil d _ _ => d
  | .node (.node ll ld lh lr) _ _ _ => findMin (.node ll ld lh lr)

/-- Helper for the two-children case of delete: the Go code discards the
inner delete's error with a blank assignment, so on error the right
subtree is kept unchanged and no decrement happened below. -/
def innerResult (r : Node) : Except AvlError (Node × Int) → Node × Int
  | .error _ => (r, 0)
  | .ok p => p

/-- Embeds `func (t *AvlTree) delete(node **Node, n int) error` at one
slot.  Returns the error when Go does (tree untouched on that path), else
the new subtree together with the number of nodeCount decrements
performed below this slot.  The branch structure mirrors the Go chain:
search left, search right, two-children successor copy (inner error
discarded), left-child splice (the promoted child's own pointers are
nilled out), right-child splice, and the fall-through else that leaves a
found leaf in place; then balance runs at the slot and nil is returned. -/
def delete : Node → Int → Except AvlError (Node × Int)
  | .nil, _ => .error .errItemNotFound
  | .node l d h r, n =>
      if n < d then
        (delete l n).map (fun p => (balance (.node p.1 d h r), p.2))
      else if n > d then
        (delete r n).map (fun p => (balance (.node l d h p.1), p.2))
      else
        match l, r with
        | .node ll ld lh lr, .node rl rd rh rr =>
            let m := findMin (.node rl rd rh rr)
            let p := innerResult (.node rl rd rh rr) (delete (.node rl rd rh rr) m)
            .ok (balance (.node (.node ll ld lh lr) m h p.1), p.2)
        | .node _ ld lh _, .nil =>
            .ok (balance (.node .nil ld lh .nil), 1)
        | .nil, .node _ rd rh _ =>
            .ok (balance (.node .nil rd rh .nil), 1)
        | .nil, .nil =>
            .ok (balance (.node .nil d h .nil), 0)

/-- Embeds `func (t *AvlTree) Delete(n int) error`: runs the recursive
delete at the root, applying the accumulated nodeCount decrements. -/
def Delete (t : AvlTree) (n : Int) : Except AvlError AvlTree :=
  match delete t.root n with
  | .error e => .error e
  | .ok (r, c) => .ok ⟨r, t.nodeCount - c⟩

/-- Embeds `func inorder(node *Node, visitor nodeVisitor)` as the list of
visited keys: left subtree, node, right subtree. -/
def inorder : Node → List Int
  | .nil => []
  | .node l d _ r => inorder l ++ [d] ++ inorder r

/-- Embeds `func (t *AvlTree) find(node *Node, n int) *Node` as a
membership test (whether find returns a non-nil node). -/
def find : Node → Int → Bool
  | .nil, _ => false
  | .node l d _ r, n =>
      if n = d then true
      else if n < d then find l n
      else find r n

/-- Set-membership of a key anywhere in the structure (not along the
search path); used to state presence/absence of keys. -/
def contains : Node → Int → Bool
  | .nil, _ => false
  | .node l d _ r, n => decide (n = d) || contains l n || contains r n

/-- Number of nodes reachable from a slot. -/
def numNodes : Node → Nat
  | .nil => 0
  | .node l _ _ r => numNodes l + numNodes r + 1

/-- All keys in the subtree satisfy the predicate. -/
def allKeys (p : Int → Bool) : Node → Bool
  | .nil => true
  | .node l d _ r => p d && allKeys p l && allKeys p r

/-- BST order (spec section 3): at every node all left keys are smaller
and all right keys are greater than the node's key. -/
def bstOrdered : Node → Bool
  | .nil => true
  | .node l d _ r =>
      allKeys (fun k => decide (k < d)) l && allKeys (fun k => decide (k > d)) r &&
        bstOrdered l && bstOrdered r

/-- Height consistency (spec section 3): every stored height equals
1 + max of the children's heights, an absent child counting as -1. -/
def heightConsistent : Node → Bool
  | .nil => true
  | .node l _ h r =>
      decide (h = 1 + Avl.max (height l) (height r)) && heightConsistent l &&
        heightConsistent r

/-- AVL balance (spec section 3): at every node the stored heights of the
children differ by at most 1. -/
def balancedTree : Node → Bool
  | .nil => true
  | .node l _ _ r =>
      decide (height l - height r ≤ 1) && decide (height r - height l ≤ 1) &&
        balancedTree l && balancedTree r

/-- A key list is strictly increasing. -/
def strictlyIncreasing : List Int → Bool
  | [] => true
  | [_] => true
  | a :: b :: rest => decide (a < b) && strictlyIncreasing (b :: rest)

/-- One public mutating operation of the API. -/
inductive Op where
  | insert (n : Int) : Op
  | delete (n : Int) : Op
deriving DecidableEq, Repr

/-- Run one operation the way a Go caller experiences it: on error the
tree value is unchanged (the error paths of insert and delete perform no
mutation). -/
def applyOp (t : AvlTree) (op : Op) : AvlTree :=
  match op with
  | .insert n =>
      match Insert t n with
      | .ok t2 => t2
      | .error _ => t
  | .delete n =>
      match Delete t n with
      | .ok t2 => t2
      | .error _ => t

/-- Run a sequence of operations from the empty tree. -/
def runOps (ops : List Op) : AvlTree :=
  ops.foldl applyOp NewTree

/-- A concrete left-heavy tree whose left child has two subtrees of equal
height: node 3 (stored height 2) with left child 1 (height 1) over the
leaves 0 and 2, and no right child.  All stored heights are consistent. -/
def cexLeftHeavyEqual : Node :=
  Node.node (Node.node (Node.node .nil 0 0 .nil) 1 1 (Node.node .nil 2 0 .nil)) 3 2 .nil

theorem le_max_left (x y : Int) : x ≤ Avl.max x y := by
  unfold Avl.max; split <;> omega

theorem le_max_right (x y : Int) : y ≤ Avl.max x y := by
  unfold Avl.max; split <;> omega

theorem max_le (x y z : Int) (hx : x ≤ z) (hy : y ≤ z) : Avl.max x y ≤ z := by
  unfold Avl.max; split <;> omega

theorem height_ge_neg_one_of_consistent (t : Node) :
    heightConsistent t = true → -1 ≤ height t := by
  induction t with
  | nil => intro _; simp [height]
  | node l d h r ihl ihr =>
      intro hc
      simp only [heightConsistent, Bool.and_eq_true, decide_eq_true_eq] at hc
      obtain ⟨⟨he, hcl⟩, hcr⟩ := hc
      have hl := ihl hcl
      have h2 := le_max_left (height l) (height r)
      simp only [height]
      omega

theorem eq_nil_of_consistent_of_height_neg (t : Node)
    (hc : heightConsistent t = true) (hh : height t < 0) : t = Node.nil := by
  cases t with
  | nil => rfl
  | node l d h r =>
      exfalso
      simp only [heightConsistent, Bool.and_eq_true, decide_eq_true_eq] at hc
      obtain ⟨⟨he, hcl⟩, hcr⟩ := hc
      have hl := height_ge_neg_one_of_consistent l hcl
      have h2 := le_max_left (height l) (height r)
      simp only [height] at hh
      omega

/-- Claim C1: the code evaluated at the failing input.  Inserting 5 into
the empty tree makes a single leaf; deleting 5 then reports success, yet
the resulting tree still holds that leaf and the count is still 1 — the
found leaf falls through every branch of delete's case chain, so it is
never removed and the root slot never becomes nil. -/
theorem delete_leaf_left_in_place :
    Insert NewTree 5 = .ok ⟨Node.node .nil 5 0 .nil, 1⟩ ∧
    Delete ⟨Node.node .nil 5 0 .nil, 1⟩ 5 = .ok ⟨Node.node .nil 5 0 .nil, 1⟩ ∧
    (Node.node Node.nil 5 0 Node.nil) ≠ Node.nil :=
  ⟨rfl, rfl, by decide⟩

/-- Claim C2: the code evaluated at the failing sequence.  After inserting
1, 2, 3 and deleting 2, the in-order traversal is [1, 3, 3]: the
two-children case copies the successor key 3 into the root, but the
recursive removal of the successor leaf is a no-op, so the key 3 now
coexists twice and the traversal is not strictly increasing. -/
theorem inorder_not_strictly_increasing_after_delete :
    inorder (runOps [Op.insert 1, Op.insert 2, Op.insert 3, Op.delete 2]).root = [1, 3, 3] ∧
    strictlyIncreasing
      (inorder (runOps [Op.insert 1, Op.insert 2, Op.insert 3, Op.delete 2]).root) = false :=
  ⟨rfl, rfl⟩

/-- Claim C3: the code evaluated at the failing sequence.  After inserting
2, 1, 3, 4 and deleting 3 (a one-child splice deep in the tree), the root
keeps its stale stored height 2 although both of its children are leaves:
delete never recomputes ancestor heights on the way back up (unlike
insert, it has no setHeight call), so stored-height consistency is
violated. -/
theorem heights_stale_after_delete :
    (runOps [Op.insert 2, Op.insert 1, Op.insert 3, Op.insert 4, Op.delete 3]).root =
      Node.node (Node.node .nil 1 0 .nil) 2 2 (Node.node .nil 4 0 .nil) ∧
    heightConsistent
      (runOps [Op.insert 2, Op.insert 1, Op.insert 3, Op.insert 4, Op.delete 3]).root = false :=
  ⟨rfl, rfl⟩

/-- Claim C4: the code evaluated at the failing sequence.  One successful
insert (of 5 into the empty tree) followed by one successful delete (of 5)
leaves nodeCount at 1, not 1 - 1 = 0: the success-reporting leaf delete
never reaches a decrementing branch. -/
theorem nodeCount_not_inserts_minus_deletes :
    Insert NewTree 5 = .ok ⟨Node.node .nil 5 0 .nil, 1⟩ ∧
    Delete ⟨Node.node .nil 5 0 .nil, 1⟩ 5 = .ok ⟨Node.node .nil 5 0 .nil, 1⟩ ∧
    (⟨Node.node .nil 5 0 .nil, 1⟩ : AvlTree).nodeCount ≠ 1 - 1 :=
  ⟨rfl, rfl, by decide⟩

/-- Claim C9: the code evaluated at the failing input.  From the empty
tree, inserting 5 succeeds and the subsequent delete of 5 also reports
success, yet the in-order traversal afterwards is [5] instead of the
original empty sequence: the round trip does not restore the key
sequence because the leaf is never physically removed. -/
theorem roundtrip_inorder_not_restored :
    Insert NewTree 5 = .ok ⟨Node.node .nil 5 0 .nil, 1⟩ ∧
    Delete ⟨Node.node .nil 5 0 .nil, 1⟩ 5 = .ok ⟨Node.node .nil 5 0 .nil, 1⟩ ∧
    inorder (Node.node Node.nil 5 0 Node.nil) = [5] ∧
    inorder NewTree.root = [] :=
  ⟨rfl, rfl, rfl, rfl⟩

/-- Claim C7, counterexample: at a left-heavy node whose left child's two
subtrees have equal heights ("at least as tall" includes equality), the
code does not perform the single right rotation the claim requires — the
outer-deeper test is strict, so the equal case takes the double-rotation
branch. -/
theorem balance_equal_outer_heights_not_single :
    height (Node.node (Node.node .nil 0 0 .nil) 1 1 (Node.node .nil 2 0 .nil)) -
      height Node.nil > 1 ∧
    height (Node.node Node.nil 0 0 Node.nil) = height (Node.node Node.nil 2 0 Node.nil) ∧
    heightConsistent cexLeftHeavyEqual = true ∧
    balance cexLeftHeavyEqual ≠ rotateWithLeftChild cexLeftHeavyEqual ∧
    balance cexLeftHeavyEqual = doubleRotateWithLeftChild cexLeftHeavyEqual :=
  ⟨by decide, by decide, by decide, by decide, rfl⟩

/-- Claim C8: the single right rotation rewires exactly as specified — the
left child L is promoted, its right subtree becomes the demoted node's
left subtree, the demoted node becomes L's right child — and heights are
recomputed child-first: the demoted node's new stored height is 1 + max
over its new children, and L's new stored height reads that fresh value.
Consequently, consistent stored heights below the rotation yield
consistent stored heights at both rewired nodes (the whole rotated
subtree is height-consistent). -/
theorem rotateWithLeftChild_spec (ll lr r : Node) (ld lh d h : Int) :
    rotateWithLeftChild (Node.node (Node.node ll ld lh lr) d h r) =
      Node.node ll ld (1 + Avl.max (height ll) (1 + Avl.max (height lr) (height r)))
        (Node.node lr d (1 + Avl.max (height lr) (height r)) r) ∧
    (heightConsistent ll = true → heightConsistent lr = true → heightConsistent r = true →
      heightConsistent (rotateWithLeftChild (Node.node (Node.node ll ld lh lr) d h r)) = true) := by
  constructor
  · rfl
  · intro h1 h2 h3
    simp [rotateWithLeftChild, setHeight, heightConsistent, height, h1, h2, h3]

/-- Witness for rotateWithLeftChild_spec at concrete subtrees. -/
theorem rotateWithLeftChild_spec_witness :
    rotateWithLeftChild (Node.node (Node.node Node.nil 1 0 Node.nil) 2 1 Node.nil) =
      Node.node Node.nil 1
        (1 + Avl.max (height Node.nil) (1 + Avl.max (height Node.nil) (height Node.nil)))
        (Node.node Node.nil 2 (1 + Avl.max (height Node.nil) (height Node.nil)) Node.nil) ∧
    heightConsistent
      (rotateWithLeftChild (Node.node (Node.node Node.nil 1 0 Node.nil) 2 1 Node.nil)) = true := by
  have h := rotateWithLeftChild_spec Node.nil Node.nil Node.nil 1 0 2 1
  exact ⟨h.1, h.2 rfl rfl rfl⟩

/-- Claim C10: in any subtree satisfying the balance invariant and
stored-height consistency, a node with exactly one child has a leaf as
that child; delete's one-child splice — which installs the promoted child
and nils out the promoted child's own pointers — therefore returns
exactly that child with one count decrement, discarding no node beyond
the one removed. -/
theorem one_child_is_leaf_splice_safe (l r : Node) (d h : Int)
    (hb : balancedTree (Node.node l d h r) = true)
    (hc : heightConsistent (Node.node l d h r) = true) :
    (∀ ll ld lh lr, l = Node.node ll ld lh lr → r = Node.nil →
        ll = Node.nil ∧ lr = Node.nil ∧ delete (Node.node l d h r) d = .ok (l, 1)) ∧
    (∀ rl rd rh rr, r = Node.node rl rd rh rr → l = Node.nil →
        rl = Node.nil ∧ rr = Node.nil ∧ delete (Node.node l d h r) d = .ok (r, 1)) := by
  simp only [balancedTree, Bool.and_eq_true, decide_eq_true_eq] at hb
  obtain ⟨⟨⟨hd1, hd2⟩, hbl⟩, hbr⟩ := hb
  simp only [heightConsistent, Bool.and_eq_true, decide_eq_true_eq] at hc
  obtain ⟨⟨hhe, hcl⟩, hcr⟩ := hc
  constructor
  · rintro ll ld lh lr rfl rfl
    simp only [heightConsistent, Bool.and_eq_true, decide_eq_true_eq] at hcl
    obtain ⟨⟨hle, hcll⟩, hclr⟩ := hcl
    have hlln := height_ge_neg_one_of_consistent ll hcll
    have hlrn := height_ge_neg_one_of_consistent lr hclr
    have hml := le_max_left (height ll) (height lr)
    have hmr := le_max_right (height ll) (height lr)
    simp only [height] at hd1 hd2
    have hllnil : ll = Node.nil :=
      eq_nil_of_consistent_of_height_neg ll hcll (by omega)
    have hlrnil : lr = Node.nil :=
      eq_nil_of_consistent_of_height_neg lr hclr (by omega)
    subst hllnil; subst hlrnil
    refine ⟨rfl, rfl, ?_⟩
    simp [Avl.delete, balance, height, allowedImbalance]
  · rintro rl rd rh rr rfl rfl
    simp only [heightConsistent, Bool.and_eq_true, decide_eq_true_eq] at hcr
    obtain ⟨⟨hre, hcrl⟩, hcrr⟩ := hcr
    have hrln := height_ge_neg_one_of_consistent rl hcrl
    have hrrn := height_ge_neg_one_of_consistent rr hcrr
    have hml := le_max_left (height rl) (height rr)
    have hmr := le_max_right (height rl) (height rr)
    simp only [height] at hd1 hd2
    have hrlnil : rl = Node.nil :=
      eq_nil_of_consistent_of_height_neg rl hcrl (by omega)
    have hrrnil : rr = Node.nil :=
      eq_nil_of_consistent_of_height_neg rr hcrr (by omega)
    subst hrlnil; subst hrrnil
    refine ⟨rfl, rfl, ?_⟩
    simp [Avl.delete, balance, height, allowedImbalance]

/-- Witness for one_child_is_leaf_splice_safe: a node 9 with a single
leaf child 7 is spliced to exactly that leaf with one decrement. -/
theorem one_child_is_leaf_splice_safe_witness :
    delete (Node.node (Node.node Node.nil 7 0 Node.nil) 9 1 Node.nil) 9 =
      .ok (Node.node Node.nil 7 0 Node.nil, 1) :=
  ((one_child_is_leaf_splice_safe (Node.node Node.nil 7 0 Node.nil) Node.nil 9 1
      (by decide) (by decide)).1 Node.nil 7 0 Node.nil rfl rfl).2.2

/-- Claim C7, amended: at a node found left-heavy (left height minus
right height above the allowed imbalance), balance performs the single
right rotation exactly when the left child's left subtree is strictly
taller than the left child's right subtree; when the heights are equal or
the right one is taller, it performs the double rotation.  Mirrored for a
right-heavy node. -/
theorem balance_rotation_strictness (t : Node) :
    (∀ l d h r ll ld lh lr, t = Node.node l d h r → l = Node.node ll ld lh lr →
        height l - height r > allowedImbalance →
        (height ll > height lr → balance t = rotateWithLeftChild t) ∧
        (height ll ≤ height lr → balance t = doubleRotateWithLeftChild t)) ∧
    (∀ l d h r rl rd rh rr, t = Node.node l d h r → r = Node.node rl rd rh rr →
        height r - height l > allowedImbalance →
        (height rr > height rl → balance t = rotateWithRightChild t) ∧
        (height rr ≤ height rl → balance t = doubleRotateWithRightChild t)) := by
  constructor
  · rintro l d h r ll ld lh lr rfl rfl hgt
    constructor
    · intro hout
      simp [balance, hgt, outerLeftDeeper, hout]
    · intro hout
      simp [balance, hgt, outerLeftDeeper]
      omega
  · rintro l d h r rl rd rh rr rfl rfl hgt
    have hnot : ¬ (height l - height (Node.node rl rd rh rr) > allowedImbalance) := by
      simp only [allowedImbalance] at hgt ⊢; omega
    constructor
    · intro hout
      simp [balance, hgt, hnot, outerRightDeeper, hout]
    · intro hout
      simp [balance, hgt, hnot, outerRightDeeper]
      omega

/-- Witness for balance_rotation_strictness: on a left-heavy node whose
left child is strictly taller on the outside, balance is the single
rotation; on the equal-height configuration it is the double rotation. -/
theorem balance_rotation_strictness_witness :
    balance (Node.node (Node.node (Node.node Node.nil 0 0 Node.nil) 1 1 Node.nil) 3 2 Node.nil) =
      rotateWithLeftChild
        (Node.node (Node.node (Node.node Node.nil 0 0 Node.nil) 1 1 Node.nil) 3 2 Node.nil) ∧
    balance cexLeftHeavyEqual = doubleRotateWithLeftChild cexLeftHeavyEqual := by
  constructor
  · exact ((balance_rotation_strictness _).1 _ 3 2 _ _ 1 1 _ rfl rfl (by decide)).1 (by decide)
  · exact ((balance_rotation_strictness cexLeftHeavyEqual).1 _ 3 2 _ _ 1 1 _ rfl rfl
      (by decide)).2 (by decide)

theorem numNodes_setHeight (t : Node) : numNodes (setHeight t) = numNodes t := by
  cases t <;> rfl

theorem numNodes_rotateWithLeftChild (t : Node) :
    numNodes (rotateWithLeftChild t) = numNodes t := by
  cases t with
  | nil => rfl
  | node l d h r =>
      cases l with
      | nil => rfl
      | node ll ld lh lr =>
          simp only [rotateWithLeftChild, setHeight, numNodes]
          omega

theorem numNodes_rotateWithRightChild (t : Node) :
    numNodes (rotateWithRightChild t) = numNodes t := by
  cases t with
  | nil => rfl
  | node l d h r =>
      cases r with
      | nil => rfl
      | node rl rd rh rr =>
          simp only [rotateWithRightChild, setHeight, numNodes]
          omega

theorem numNodes_doubleRotateWithLeftChild (t : Node) :
    numNodes (doubleRotateWithLeftChild t) = numNodes t := by
  cases t with
  | nil => rfl
  | node l d h r =>
      simp only [doubleRotateWithLeftChild, numNodes_rotateWithLeftChild, numNodes,
        numNodes_rotateWithRightChild]

theorem numNodes_doubleRotateWithRightChild (t : Node) :
    numNodes (doubleRotateWithRightChild t) = numNodes t := by
  cases t with
  | nil => rfl
  | node l d h r =>
      simp only [doubleRotateWithRightChild, numNodes_rotateWithRightChild, numNodes,
        numNodes_rotateWithLeftChild]

theorem numNodes_balance (t : Node) : numNodes (balance t) = numNodes t := by
  cases t with
  | nil => rfl
  | node l d h r =>
      simp only [balance]
      split
      · split
        · exact numNodes_rotateWithLeftChild _
        · exact numNodes_doubleRotateWithLeftChild _
      · split
        · split
          · exact numNodes_rotateWithRightChild _
          · exact numNodes_doubleRotateWithRightChild _
        · rfl

theorem insert_some_numNodes (t : Node) (n : Int) :
    ∀ t2, insert t n = some t2 → numNodes t2 = numNodes t + 1 := by
  induction t with
  | nil =>
      intro t2 hins
      simp only [insert, Option.some.injEq] at hins
      subst hins
      rfl
  | node l d h r ihl ihr =>
      intro t2 hins
      simp only [insert] at hins
      by_cases hnd : n = d
      · simp [hnd] at hins
      · simp only [hnd, if_false] at hins
        by_cases hlt : n < d
        · simp only [hlt, if_true] at hins
          cases hl : insert l n with
          | none => rw [hl] at hins; cases hins
          | some l2 =>
              rw [hl] at hins
              simp only [Option.some.injEq] at hins
              subst hins
              rw [numNodes_balance, numNodes_setHeight]
              have := ihl l2 hl
              simp only [numNodes]
              omega
        · simp only [hlt, if_false] at hins
          cases hr : insert r n with
          | none => rw [hr] at hins; cases hins
          | some r2 =>
              rw [hr] at hins
              simp only [Option.some.injEq] at hins
              subst hins
              rw [numNodes_balance, numNodes_setHeight]
              have := ihr r2 hr
              simp only [numNodes]
              omega

theorem contains_of_allKeys (p : Int → Bool) (t : Node) (n : Int) :
    allKeys p t = true → contains t n = true → p n = true := by
  induction t with
  | nil => intro _ hcon; simp [contains] at hcon
  | node l d h r ihl ihr =>
      intro hall hcon
      simp only [allKeys, Bool.and_eq_true] at hall
      obtain ⟨⟨hpd, hal⟩, har⟩ := hall
      simp only [contains, Bool.or_eq_true, decide_eq_true_eq] at hcon
      rcases hcon with (hnd | hl) | hr
      · subst hnd; exact hpd
      · exact ihl hal hl
      · exact ihr har hr

theorem insert_none_iff (t : Node) (n : Int) (hb : bstOrdered t = true) :
    insert t n = none ↔ contains t n = true := by
  induction t with
  | nil => simp [insert, contains]
  | node l d h r ihl ihr =>
      simp only [bstOrdered, Bool.and_eq_true] at hb
      obtain ⟨⟨⟨hal, har⟩, hbl⟩, hbr⟩ := hb
      by_cases hnd : n = d
      · subst hnd
        simp [insert, contains]
      · by_cases hlt : n < d
        · have hcr : contains r n = false := by
            cases hx : contains r n with
            | false => rfl
            | true =>
                exfalso
                have := contains_of_allKeys _ r n har hx
                simp only [decide_eq_true_eq] at this
                omega
          cases hl : insert l n with
          | none =>
              have hcl : contains l n = true := (ihl hbl).mp hl
              simp [insert, contains, hnd, hlt, hl, hcl]
          | some l2 =>
              have hcl : contains l n = false := by
                cases hx : contains l n with
                | false => rfl
                | true =>
                    have := (ihl hbl).mpr hx
                    rw [this] at hl
                    cases hl
              simp [insert, contains, hnd, hlt, hl, hcl, hcr]
        · have hcl : contains l n = false := by
            cases hx : contains l n with
            | false => rfl
            | true =>
                exfalso
                have := contains_of_allKeys _ l n hal hx
                simp only [decide_eq_true_eq] at this
                omega
          cases hr : insert r n with
          | none =>
              have hcr : contains r n = true := (ihr hbr).mp hr
              simp [insert, contains, hnd, hlt, hr, hcr]
          | some r2 =>
              have hcr : contains r n = false := by
                cases hx : contains r n with
                | false => rfl
                | true =>
                    have := (ihr hbr).mpr hx
                    rw [this] at hr
                    cases hr
              simp [insert, contains, hnd, hlt, hr, hcl, hcr]

/-- Claim C5: on any BST-ordered tree, Insert fails with the duplicate
error exactly when the key is already present; in that case the caller's
tree value is unchanged (the error path mutates nothing); on success the
stored nodeCount and the actual number of nodes both grow by exactly
one. -/
theorem Insert_duplicate_iff_present (t : AvlTree) (n : Int)
    (hb : bstOrdered t.root = true) :
    (Insert t n = .error .errDuplicateItem ↔ contains t.root n = true) ∧
    (contains t.root n = true → applyOp t (Op.insert n) = t) ∧
    (∀ t2, Insert t n = .ok t2 →
        t2.nodeCount = t.nodeCount + 1 ∧ numNodes t2.root = numNodes t.root + 1) := by
  have hiff := insert_none_iff t.root n hb
  refine ⟨⟨?_, ?_⟩, ?_, ?_⟩
  · intro he
    unfold Insert at he
    cases hi : insert t.root n with
    | none => exact hiff.mp hi
    | some r2 => rw [hi] at he; cases he
  · intro hc
    have hnone : insert t.root n = none := hiff.mpr hc
    unfold Insert
    rw [hnone]
  · intro hc
    have hnone : insert t.root n = none := hiff.mpr hc
    simp [applyOp, Insert, hnone]
  · intro t2 hok
    unfold Insert at hok
    cases hi : insert t.root n with
    | none => rw [hi] at hok; cases hok
    | some r2 =>
        rw [hi] at hok
        cases hok
        exact ⟨rfl, insert_some_numNodes t.root n r2 hi⟩

/-- Witness for Insert_duplicate_iff_present: inserting 5 twice into the
empty tree — the second insert fails with the duplicate error and the
count remains 1 (Scenario D). -/
theorem Insert_duplicate_iff_present_witness :
    bstOrdered (applyOp NewTree (Op.insert 5)).root = true ∧
    Insert (applyOp NewTree (Op.insert 5)) 5 = .error .errDuplicateItem ∧
    (applyOp NewTree (Op.insert 5)).nodeCount = 1 := by
  refine ⟨by decide, ?_, by decide⟩
  exact (Insert_duplicate_iff_present (applyOp NewTree (Op.insert 5)) 5 (by decide)).1.mpr
    (by decide)

theorem delete_node_eq (l : Node) (d h : Int) (r : Node) (n : Int) :
    delete (Node.node l d h r) n =
      (if n < d then
        (delete l n).map (fun p => (balance (.node p.1 d h r), p.2))
      else if n > d then
        (delete r n).map (fun p => (balance (.node l d h p.1), p.2))
      else
        match l, r with
        | .node ll ld lh lr, .node rl rd rh rr =>
            let m := findMin (.node rl rd rh rr)
            let p := innerResult (.node rl rd rh rr) (delete (.node rl rd rh rr) m)
            .ok (balance (.node (.node ll ld lh lr) m h p.1), p.2)
        | .node _ ld lh _, .nil =>
            .ok (balance (.node .nil ld lh .nil), 1)
        | .nil, .node _ rd rh _ =>
            .ok (balance (.node .nil rd rh .nil), 1)
        | .nil, .nil =>
            .ok (balance (.node .nil d h .nil), 0)) := by
  cases l <;> cases r <;> rfl

theorem delete_error_eq (t : Node) (n : Int) :
    ∀ e, delete t n = .error e → e = .errItemNotFound := by
  induction t with
  | nil =>
      intro e hdel
      simp only [Avl.delete, Except.error.injEq] at hdel
      exact hdel.symm
  | node l d h r ihl ihr =>
      intro e hdel
      rw [delete_node_eq] at hdel
      by_cases hlt : n < d
      · simp only [hlt, if_true] at hdel
        cases hl : Avl.delete l n with
        | error e2 =>
            rw [hl] at hdel
            simp only [Except.map, Except.error.injEq] at hdel
            exact hdel ▸ ihl e2 hl
        | ok p =>
            rw [hl] at hdel
            simp [Except.map] at hdel
      · by_cases hgt : n > d
        · simp only [hlt, hgt, if_false, if_true] at hdel
          cases hr : Avl.delete r n with
          | error e2 =>
              rw [hr] at hdel
              simp only [Except.map, Except.error.injEq] at hdel
              exact hdel ▸ ihr e2 hr
          | ok p =>
              rw [hr] at hdel
              simp [Except.map] at hdel
        · simp only [hlt, hgt, if_false] at hdel
          cases l with
          | nil =>
              cases r with
              | nil => simp at hdel
              | node rl rd rh rr => simp at hdel
          | node ll ld lh lr =>
              cases r with
              | nil => simp at hdel
              | node rl rd rh rr => simp at hdel

theorem delete_error_iff (t : Node) (n : Int) (hb : bstOrdered t = true) :
    Avl.delete t n = .error .errItemNotFound ↔ contains t n = false := by
  induction t with
  | nil => simp [Avl.delete, contains]
  | node l d h r ihl ihr =>
      simp only [bstOrdered, Bool.and_eq_true] at hb
      obtain ⟨⟨⟨hal, har⟩, hbl⟩, hbr⟩ := hb
      by_cases hlt : n < d
      · have hnd : ¬ (n = d) := by omega
        have hcr : contains r n = false := by
          cases hx : contains r n with
          | false => rfl
          | true =>
              exfalso
              have := contains_of_allKeys _ r n har hx
              simp only [decide_eq_true_eq] at this
              omega
        cases hl : Avl.delete l n with
        | error e2 =>
            have he2 : e2 = .errItemNotFound := delete_error_eq l n e2 hl
            subst he2
            have hcl : contains l n = false := (ihl hbl).mp hl
            rw [delete_node_eq]
            simp [Except.map, contains, hlt, hl, hnd, hcl, hcr]
        | ok p =>
            have hcl : contains l n = true := by
              cases hx : contains l n with
              | true => rfl
              | false =>
                  have := (ihl hbl).mpr hx
                  rw [this] at hl
                  cases hl
            rw [delete_node_eq]
            simp [Except.map, contains, hlt, hl, hnd, hcl]
      · by_cases hgt : n > d
        · have hnd : ¬ (n = d) := by omega
          have hcl : contains l n = false := by
            cases hx : contains l n with
            | false => rfl
            | true =>
                exfalso
                have := contains_of_allKeys _ l n hal hx
                simp only [decide_eq_true_eq] at this
                omega
          cases hr : Avl.delete r n with
          | error e2 =>
              have he2 : e2 = .errItemNotFound := delete_error_eq r n e2 hr
              subst he2
              have hcr : contains r n = false := (ihr hbr).mp hr
              rw [delete_node_eq]
              simp [Except.map, contains, hlt, hgt, hr, hnd, hcl, hcr]
          | ok p =>
              have hcr : contains r n = true := by
                cases hx : contains r n with
                | true => rfl
                | false =>
                    have := (ihr hbr).mpr hx
                    rw [this] at hr
                    cases hr
              rw [delete_node_eq]
              simp [Except.map, contains, hlt, hgt, hr, hnd, hcr]
        · have hnd : n = d := by omega
          subst hnd
          cases l with
          | nil =>
              cases r with
              | nil => simp [Avl.delete, contains]
              | node rl rd rh rr => simp [Avl.delete, contains]
          | node ll ld lh lr =>
              cases r with
              | nil => simp [Avl.delete, contains]
              | node rl rd rh rr => simp [Avl.delete, contains]

/-- Claim C6: on any BST-ordered tree, Delete fails with the not-found
error exactly when the key is absent, and in that case the caller's tree
value is unchanged (the error path performs no mutation and skips the
rebalance calls). -/
theorem Delete_notfound_iff_absent (t : AvlTree) (n : Int)
    (hb : bstOrdered t.root = true) :
    (Delete t n = .error .errItemNotFound ↔ contains t.root n = false) ∧
    (contains t.root n = false → applyOp t (Op.delete n) = t) := by
  have hiff := delete_error_iff t.root n hb
  refine ⟨⟨?_, ?_⟩, ?_⟩
  · intro he
    unfold Delete at he
    cases hi : Avl.delete t.root n with
    | error e =>
        have : e = .errItemNotFound := delete_error_eq t.root n e hi
        subst this
        exact hiff.mp hi
    | ok p =>
        obtain ⟨r2, c⟩ := p
        rw [hi] at he
        cases he
  · intro hc
    have hd := hiff.mpr hc
    unfold Delete
    rw [hd]
  · intro hc
    have hd := hiff.mpr hc
    simp [applyOp, Delete, hd]

/-- Witness for Delete_notfound_iff_absent: deleting from the empty tree
fails with the not-found error and the count remains 0 (Scenario E). -/
theorem Delete_notfound_iff_absent_witness :
    Delete NewTree 5 = .error .errItemNotFound ∧
    (applyOp NewTree (Op.delete 5)).nodeCount = 0 := by
  refine ⟨?_, rfl⟩
  exact (Delete_notfound_iff_absent NewTree 5 (by decide)).1.mpr (by decide)

end Avl
